import Mathlib

set_option maxRecDepth 100000

/-!
Shallow embedding of `scripts/bpsw/bpsw_worker.py`.

Python `int` values are modelled as `Int` where signs can occur (jacobi
arguments, egcd, crt_pair, Lucas sequence values) and as `Nat` where the
source only ever handles non-negative values.  Python's `%` and `//` on
integers are floor-convention, i.e. `Int.fmod` and `Int.fdiv`; for a
positive modulus they agree with `Int.emod` (`%` on `Int`).

Unbounded `while` loops of the source are modelled with an explicit fuel
parameter; every claim either quantifies over the fuel or is proved with a
fuel that provably suffices.  `random.Random` draws are modelled as an
abstract stream `f : Nat → Nat` of raw draws together with a position
index; `random_odd_in_range` maps one raw draw onto the exact support of
`randrange(low', high' + 1, 2)`.

The `gmpy2` dependency is absent in the modelled environment, so
`is_bpsw_probable_prime` takes the custom fallback path
(trial division, Miller-Rabin base 2, Lucas-Selfridge).
-/

/-- `SMALL_PRIMES` from the source: the fixed trial division list. -/
def SMALL_PRIMES : List Nat := [2, 3, 5, 7, 11, 13, 17, 19, 23, 29, 31, 37]

/-- `DEFAULT_M_PRIMES` from the source. -/
def DEFAULT_M_PRIMES : List Nat := [13, 17, 29, 37, 41]

/-- `DEFAULT_N_PRIMES` from the source. -/
def DEFAULT_N_PRIMES : List Nat := [3, 7, 11, 19, 23]

/-- Fuel-based binary modular exponentiation; models Python's builtin
`pow(a, e, n)` for `n > 0`.  The fuel only needs to dominate `log2 e`,
and callers pass `e` itself. -/
def powModAux : Nat → Nat → Nat → Nat → Nat
  | 0, _, _, n => 1 % n
  | fuel + 1, a, e, n =>
    if e = 0 then 1 % n
    else
      let h := powModAux fuel a (e / 2) n
      let h2 := h * h % n
      if e % 2 = 1 then h2 * (a % n) % n else h2

/-- Python `pow(a, e, n)` (for `n > 0`), i.e. `a ^ e % n`. -/
def powMod (a e n : Nat) : Nat := powModAux e a e n

/-- The loop `while d % 2 == 0: d //= 2; s += 1` of the source, returning
`(s, d)` with `m = 2 ^ s * d` and `d` odd (for `0 < m` and fuel `≥ m`). -/
def oddSplitAux : Nat → Nat → Nat × Nat
  | 0, m => (0, m)
  | fuel + 1, m =>
    if m % 2 = 0 then
      let p := oddSplitAux fuel (m / 2)
      (p.1 + 1, p.2)
    else (0, m)

/-- The squaring loop of `miller_rabin`: `for _ in range(c): x = x*x % n;
if x == n - 1: composite = False; break`.  Returns `true` iff a square
reaches `n - 1`. -/
def mrSqLoop : Nat → Nat → Nat → Bool
  | 0, _, _ => false
  | c + 1, x, n =>
    let x2 := x * x % n
    if x2 = n - 1 then true else mrSqLoop c x2 n

/-- One base `a` of the `for a in bases` loop body of `miller_rabin`
(`n` odd, `n - 1 = 2 ^ s * d`): `true` means the base does not witness
compositeness. -/
def mrBase (n d s a : Nat) : Bool :=
  if a % n = 0 then true
  else
    let x := powMod a d n
    if x = 1 ∨ x = n - 1 then true
    else mrSqLoop (s - 1) x n

/-- `miller_rabin(n, bases)` from the source. -/
def miller_rabin (n : Nat) (bases : List Nat) : Bool :=
  if n < 2 then false
  else if n % 2 = 0 then decide (n = 2)
  else
    let sd := oddSplitAux (n - 1) (n - 1)
    bases.all fun a => mrBase n sd.2 sd.1 a

/-- Fuel-based Newton iteration of integer square root; models Python's
`math.isqrt`.  The guess strictly decreases, so fuel `≥` the initial
guess suffices. -/
def isqrtAux : Nat → Nat → Nat → Nat
  | 0, _, guess => guess
  | fuel + 1, n, guess =>
    let next := (guess + n / guess) / 2
    if next < guess then isqrtAux fuel n next else guess

/-- Python `math.isqrt(n)`: the largest `r` with `r * r ≤ n`. -/
def isqrt (n : Nat) : Nat := if n ≤ 1 then n else isqrtAux (n / 2) n (n / 2)

/-- `is_square(n)` from the source. -/
def is_square (n : Int) : Bool :=
  if n < 0 then false
  else
    let root := isqrt n.toNat
    decide (root * root = n.toNat)

/-- The inner `while a % 2 == 0` loop of `jacobi`: strips factors of two
from `a`, flipping the sign whenever `n % 8 ∈ {3, 5}`.  Called with
`a ≠ 0`, so fuel `a` suffices. -/
def jacStrip : Nat → Nat → Nat → Int → Nat × Int
  | 0, a, _, r => (a, r)
  | fuel + 1, a, n, r =>
    if a % 2 = 0 then
      jacStrip fuel (a / 2) n (if n % 8 = 3 ∨ n % 8 = 5 then -r else r)
    else (a, r)

/-- The outer `while a != 0` loop of `jacobi`.  After the two's are
stripped the source swaps `a, n = n, a`, flips the sign when both are
`3 mod 4`, and reduces `a %= n`. -/
def jacLoop : Nat → Nat → Nat → Int → Int
  | 0, _, _, _ => 0
  | fuel + 1, a, n, r =>
    if a = 0 then (if n = 1 then r else 0)
    else
      let ar := jacStrip a a n r
      let r2 := if n % 4 = 3 ∧ ar.1 % 4 = 3 then -ar.2 else ar.2
      jacLoop fuel (n % ar.1) ar.1 r2

/-- `jacobi(a, n)` from the source.  The second argument of `jacLoop`
strictly decreases every outer iteration, so fuel `n + 1` suffices. -/
def jacobi (a n : Int) : Int :=
  if n ≤ 0 ∨ n % 2 = 0 then 0
  else jacLoop (n.toNat + 1) ((a % n).toNat) n.toNat 1

/-- One update step of the Selfridge D-selection loop of
`lucas_selfridge`: `d += 2; sign = -sign; d = sign * d` acting on the
state `(d, sign)`. -/
def selfridgeStep (st : Int × Int) : Int × Int :=
  let d1 := st.1 + 2
  let s1 := -st.2
  (s1 * d1, s1)

/-- The `while True` D-selection loop of `lucas_selfridge`: return the
first examined `d` with `jacobi(d, n) = -1`, else keep stepping;
`none` models non-termination within the given fuel. -/
def selfridgeLoop (n : Nat) : Nat → Int × Int → Option Int
  | 0, _ => none
  | fuel + 1, st =>
    if jacobi st.1 n = -1 then some st.1
    else selfridgeLoop n fuel (selfridgeStep st)

/-- The `while d_bit > 1` ladder of `lucas_selfridge` on state
`(u, v, q_k)`; `d_bit` halves every iteration, so fuel `d_bit`
suffices. -/
def lucasLadder (n : Int) : Nat → Nat → Int → Int → Int → Int × Int × Int
  | 0, _, u, v, qk => (u, v, qk)
  | fuel + 1, dBit, u, v, qk =>
    if dBit > 1 then
      let u' := if dBit % 2 = 1 then u * v % n else u
      let v' := (v * v - 2 * qk) % n
      lucasLadder n fuel (dBit / 2) u' v' (qk * qk % n)
    else (u, v, qk)

/-- The trailing `for _ in range(s - 1)` doubling loop of
`lucas_selfridge`: `true` iff some doubled `v` becomes `0`. -/
def vDoubles (n : Int) : Nat → Int → Int → Bool
  | 0, _, _ => false
  | c + 1, v, qk =>
    let v' := (v * v - 2 * qk) % n
    if v' = 0 then true else vDoubles n c v' (qk * qk % n)

/-- `lucas_selfridge(n)` from the source; `dFuel` bounds the number of
iterations of the D-selection loop (`none` = that loop did not finish
within `dFuel` steps). -/
def lucas_selfridge (dFuel : Nat) (n : Nat) : Option Bool :=
  if n < 2 ∨ n % 2 = 0 then some (decide (n = 2))
  else if is_square n then some false
  else
    match selfridgeLoop n dFuel (5, 1) with
    | none => none
    | some d =>
      let p : Int := 1
      let q : Int := (1 - d).fdiv 4
      let sd := oddSplitAux (n + 1) (n + 1)
      let uvq := lucasLadder (n : Int) sd.2 sd.2 1 p q
      if uvq.1 = 0 ∨ uvq.2.1 = 0 then some true
      else some (vDoubles (n : Int) (sd.1 - 1) uvq.2.1 uvq.2.2)

/-- The `for p in SMALL_PRIMES` trial-division loop shared by
`is_bpsw_probable_prime` and `is_probable_prime`: `some true` on
equality, `some false` on nontrivial divisibility, `none` when the list
is exhausted. -/
def trialDivide : List Nat → Nat → Option Bool
  | [], _ => none
  | p :: ps, n =>
    if n = p then some true
    else if n % p = 0 then some false
    else trialDivide ps n

/-- `is_bpsw_probable_prime(n)` from the source, on the custom fallback
path (`gmpy2` absent): trial division, then strong Miller-Rabin base 2,
then Lucas-Selfridge.  `dFuel` is the Lucas D-selection fuel. -/
def is_bpsw_probable_prime (dFuel : Nat) (n : Int) : Option Bool :=
  if n < 2 then some false
  else
    let m := n.toNat
    match trialDivide SMALL_PRIMES m with
    | some b => some b
    | none =>
      if miller_rabin m [2] then lucas_selfridge dFuel m
      else some false

/-- `is_probable_prime(n)` from the source: trial division then the
deep multi-base Miller-Rabin filter. -/
def is_probable_prime (n : Nat) : Bool :=
  match trialDivide SMALL_PRIMES n with
  | some b => b
  | none => miller_rabin n [2, 3, 5, 7, 11, 13, 17]

/-- Decimal digit count, fuel-based; models `len(str(abs(n)))`. -/
def digitsAux : Nat → Nat → Nat
  | 0, _ => 1
  | fuel + 1, n => if n < 10 then 1 else digitsAux fuel (n / 10) + 1

/-- `digits(n)` from the source (for the non-negative values it is
applied to). -/
def digits (n : Nat) : Nat := digitsAux n n

/-- `egcd(a, b)` from the source, fuel-based; Python `%` and `//` are
`Int.fmod` and `Int.fdiv`.  `|fmod a b| < |b|` for `b ≠ 0`, so fuel
`|b| + 1` suffices. -/
def egcdAux : Nat → Int → Int → Int × Int × Int
  | 0, a, _ => (a, 1, 0)
  | fuel + 1, a, b =>
    if b = 0 then (a, 1, 0)
    else
      let r := egcdAux fuel b (a.fmod b)
      (r.1, r.2.2, r.2.1 - a.fdiv b * r.2.2)

/-- `egcd(a, b) -> (g, x, y)` from the source. -/
def egcd (a b : Int) : Int × Int × Int := egcdAux (b.natAbs + 1) a b

/-- `crt_pair(a1, m1, a2, m2)` from the source; the `ValueError` is
modelled as `Except.error`. -/
def crt_pair (a1 m1 a2 m2 : Int) : Except String (Int × Int) :=
  let gxy := egcd m1 m2
  let g := gxy.1
  if (a2 - a1).fmod g ≠ 0 then Except.error "incompatible congruences"
  else
    let lcm := m1.fdiv g * m2
    let t := ((a2 - a1).fdiv g * gxy.2.1).fmod (m2.fdiv g)
    Except.ok ((a1 + m1 * t).fmod lcm, lcm)

/-- `random_odd_in_range(rng, low, high)` from the source, with the raw
draw `t` standing for the PRNG state: the result ranges over exactly the
support of `randrange(low', high' + 1, 2)` as `t` ranges over `Nat`.
`none` models the `ValueError` raised when the adjusted range is
empty. -/
def random_odd_in_range (t low high : Nat) : Option Nat :=
  let low' := if low % 2 = 0 then low + 1 else low
  let high' := if high % 2 = 0 then high - 1 else high
  if low' > high' then none
  else some (low' + 2 * (t % ((high' - low') / 2 + 1)))

/-- The `while steps < max_steps` loop of `find_prime_with_filters`,
recursing on the remaining step budget; `f` is the draw stream and `i`
the current draw index.  Returns the found prime and the next index. -/
def fpwfAux (f : Nat → Nat) (pred : Nat → Bool) (low high : Nat) :
    Nat → Nat → Option (Nat × Nat)
  | 0, _ => none
  | stepsLeft + 1, i =>
    match random_odd_in_range (f i) low high with
    | none => none
    | some c =>
      if pred c && is_probable_prime c then some (c, i + 1)
      else fpwfAux f pred low high stepsLeft (i + 1)

/-- `find_prime_with_filters(rng, digits_count, max_steps, predicate)`
from the source. -/
def find_prime_with_filters (f : Nat → Nat) (i digitsCount maxSteps : Nat)
    (pred : Nat → Bool) : Option (Nat × Nat) :=
  fpwfAux f pred (10 ^ (digitsCount - 1)) (10 ^ digitsCount - 1) maxSteps i

/-- The local `predicate` of `generate_pomerance_lite`:
`p % 8 == 3 and jacobi(5, p) == -1`. -/
def pomerance_lite_predicate (p : Nat) : Bool :=
  p % 8 = 3 && jacobi 5 p = -1

/-- The factor-accumulation `while` loop of `generate_pomerance_lite`.
Each iteration appends one factor and the loop stops at 10 factors, so
fuel 11 suffices. -/
def plAux (f : Nat → Nat) (targetDigits primeDigits maxSteps : Nat) :
    Nat → Nat → List Nat → Option (Nat × List Nat)
  | 0, _, _ => none
  | fuel + 1, i, factors =>
    if digits (if factors.isEmpty then 1 else factors.prod) < targetDigits
        ∨ factors.length % 2 = 0 then
      match find_prime_with_filters f i primeDigits maxSteps
          pomerance_lite_predicate with
      | none => none
      | some pi =>
        let fs := factors ++ [pi.1]
        if fs.length > 9 then some (fs.prod, fs)
        else plAux f targetDigits primeDigits maxSteps fuel pi.2 fs
    else some (factors.prod, factors)

/-- `generate_pomerance_lite(seed, target_digits, prime_digits,
max_steps)` from the source, with the seeded PRNG abstracted into the
draw stream `f`; returns the product together with the factor list
(the `meta.factors` field). -/
def generate_pomerance_lite (f : Nat → Nat)
    (targetDigits primeDigits maxSteps : Nat) : Option (Nat × List Nat) :=
  plAux f targetDigits primeDigits maxSteps 11 0 []

/-- `generate_chernick(k, require_prime_factors)` from the source,
returning the product and the factor list. -/
def generate_chernick (k : Nat) (requirePrimeFactors : Bool) :
    Option (Nat × List Nat) :=
  let f1 := 6 * k + 1
  let f2 := 12 * k + 1
  let f3 := 18 * k + 1
  if requirePrimeFactors
      && !(is_probable_prime f1 && is_probable_prime f2 && is_probable_prime f3) then
    none
  else some (f1 * f2 * f3, [f1, f2, f3])

/-- The `for n in range(start, end + 1, 2)` loop of the range task of
`main`, on accumulators `(checked, hits, tested)`; `tested` counts the
BPSW evaluations (it is not part of the report, only an observable of
the run).  `none` propagates an out-of-fuel Lucas D-selection. -/
def runRangeAux (dFuel endN maxCand : Nat) :
    Nat → Nat → Nat → Nat → Nat → Option (Nat × Nat × Nat)
  | 0, _, checked, hits, tested => some (checked, hits, tested)
  | fuel + 1, n, checked, hits, tested =>
    if n > endN then some (checked, hits, tested)
    else if maxCand ≠ 0 ∧ checked ≥ maxCand then some (checked, hits, tested)
    else
      match is_bpsw_probable_prime dFuel (n : Int) with
      | none => none
      | some b =>
        runRangeAux dFuel endN maxCand fuel (n + 2) (checked + 1)
          (if b then hits + 1 else hits) (tested + 1)

/-- The `main_odds` / `large_numbers` branch of `main`: round `start` up
to odd, iterate odd `n ≤ end` honoring `max_candidates`, BPSW-test each.
Returns `(checked, hit_count, tested)`; `none` on the missing-range
configuration error or on Lucas fuel exhaustion. -/
def main_odds (dFuel start endN maxCand : Nat) : Option (Nat × Nat × Nat) :=
  if start = 0 ∧ endN = 0 then none
  else
    let start' := if start % 2 = 0 then start + 1 else start
    runRangeAux dFuel endN maxCand (endN + 1) start' 0 0 0

/-- The `for k in range(start, end + 1)` loop of the chernick task, on
accumulators `(checked, hits, tested, skipped)`; `skipped` counts the
`candidate is None` generations (silently skipped by the source). -/
def runChernickAux (dFuel endK : Nat) (req : Bool) :
    Nat → Nat → Nat → Nat → Nat → Nat → Option (Nat × Nat × Nat × Nat)
  | 0, _, checked, hits, tested, skipped => some (checked, hits, tested, skipped)
  | fuel + 1, k, checked, hits, tested, skipped =>
    if k > endK then some (checked, hits, tested, skipped)
    else
      match generate_chernick k req with
      | none => runChernickAux dFuel endK req fuel (k + 1) (checked + 1) hits tested (skipped + 1)
      | some nm =>
        match is_bpsw_probable_prime dFuel (nm.1 : Int) with
        | none => none
        | some b =>
          runChernickAux dFuel endK req fuel (k + 1) (checked + 1)
            (if b then hits + 1 else hits) (tested + 1) skipped

/-- The chernick branch of `main`: iterate `k ∈ [start, end]`, generate,
BPSW-test the product when generation succeeds.  Returns
`(checked, hit_count, tested, skipped)`. -/
def chernick_mode (dFuel start endK : Nat) (req : Bool) :
    Option (Nat × Nat × Nat × Nat) :=
  if start = 0 ∧ endK = 0 then none
  else runChernickAux dFuel endK req (endK + 1) start 0 0 0 0

/-- The `for seed in range(seed_start, seed_end + 1)` loop of the seed
task, abstracted over the per-family generator `gen`; accumulators are
`(checked, hits, tested, errors)` where `errors` counts the recorded
`generation_failed` records. -/
def runSeedAux (dFuel : Nat) (gen : Nat → Option (Nat × List Nat)) (endS : Nat) :
    Nat → Nat → Nat → Nat → Nat → Nat → Option (Nat × Nat × Nat × Nat)
  | 0, _, checked, hits, tested, errs => some (checked, hits, tested, errs)
  | fuel + 1, seed, checked, hits, tested, errs =>
    if seed > endS then some (checked, hits, tested, errs)
    else
      match gen seed with
      | none => runSeedAux dFuel gen endS fuel (seed + 1) (checked + 1) hits tested (errs + 1)
      | some nm =>
        match is_bpsw_probable_prime dFuel (nm.1 : Int) with
        | none => none
        | some b =>
          runSeedAux dFuel gen endS fuel (seed + 1) (checked + 1)
            (if b then hits + 1 else hits) (tested + 1) errs

/-- The seed-mode branch of `main` (the three generator families share
the same per-seed handling, abstracted here into `gen`).  Returns
`(checked, hit_count, tested, error_count)`. -/
def seed_mode (dFuel : Nat) (gen : Nat → Option (Nat × List Nat))
    (seedStart seedEnd : Nat) : Option (Nat × Nat × Nat × Nat) :=
  if seedStart = 0 ∧ seedEnd = 0 then none
  else runSeedAux dFuel gen seedEnd (seedEnd + 1) seedStart 0 0 0 0

/-! ## Helper lemmas -/

theorem powModAux_eq : ∀ (fuel a e n : Nat), 0 < n → e ≤ fuel →
    powModAux fuel a e n = a ^ e % n := by
  intro fuel
  induction fuel with
  | zero =>
    intro a e n _ he
    have : e = 0 := Nat.le_zero.mp he
    subst this
    simp [powModAux]
  | succ f ih =>
    intro a e n hn he
    by_cases he0 : e = 0
    · subst he0; simp [powModAux]
    · have hdiv : e / 2 ≤ f := by omega
      have hsplit : e = e / 2 + e / 2 + e % 2 := by omega
      simp only [powModAux, if_neg he0]
      rw [ih a (e / 2) n hn hdiv]
      by_cases hp : e % 2 = 1
      · rw [if_pos hp]
        have hpow : a ^ e = a ^ (e / 2) * a ^ (e / 2) * a := by
          conv_lhs => rw [show e = e / 2 + e / 2 + 1 by omega]
          rw [pow_succ, pow_add]
        rw [hpow, Nat.mul_mod (a ^ (e / 2) * a ^ (e / 2)) a n,
          Nat.mul_mod (a ^ (e / 2)) (a ^ (e / 2)) n]
      · rw [if_neg hp]
        have hpow : a ^ e = a ^ (e / 2) * a ^ (e / 2) := by
          conv_lhs => rw [show e = e / 2 + e / 2 by omega]
          rw [pow_add]
        rw [hpow, Nat.mul_mod (a ^ (e / 2)) (a ^ (e / 2)) n]

theorem powMod_eq (a e n : Nat) (hn : 0 < n) : powMod a e n = a ^ e % n :=
  powModAux_eq e a e n hn le_rfl

theorem oddSplitAux_spec : ∀ (fuel m : Nat), 0 < m → m ≤ fuel →
    (oddSplitAux fuel m).2 % 2 = 1 ∧
      2 ^ (oddSplitAux fuel m).1 * (oddSplitAux fuel m).2 = m := by
  intro fuel
  induction fuel with
  | zero => intro m hm hle; omega
  | succ f ih =>
    intro m hm hle
    by_cases hm2 : m % 2 = 0
    · have h1 : 0 < m / 2 := by omega
      have h2 : m / 2 ≤ f := by omega
      obtain ⟨ho, hp⟩ := ih (m / 2) h1 h2
      simp only [oddSplitAux, if_pos hm2]
      refine ⟨ho, ?_⟩
      rw [pow_succ, mul_comm (2 ^ (oddSplitAux f (m / 2)).1) 2, mul_assoc, hp]
      omega
    · simp only [oddSplitAux, if_neg hm2]
      constructor
      · omega
      · simp

theorem mrSqLoop_true : ∀ (c x n j : Nat), 1 ≤ j → j ≤ c →
    x ^ 2 ^ j % n = n - 1 → mrSqLoop c x n = true := by
  intro c
  induction c with
  | zero => intro x n j h1 h2 _; omega
  | succ c ih =>
    intro x n j h1 h2 hj
    simp only [mrSqLoop]
    by_cases hx : x * x % n = n - 1
    · rw [if_pos hx]
    · rw [if_neg hx]
      have hj2 : 2 ≤ j := by
        rcases Nat.lt_or_ge j 2 with h | h
        · exfalso
          have : j = 1 := by omega
          subst this
          simp only [pow_one, pow_two] at hj
          exact hx hj
        · exact h
      apply ih (x * x % n) n (j - 1) (by omega) (by omega)
      have : (x * x % n) ^ 2 ^ (j - 1) % n = (x * x) ^ 2 ^ (j - 1) % n :=
        (Nat.pow_mod (x * x) (2 ^ (j - 1)) n).symm
      rw [this, ← pow_two, ← pow_mul, show 2 * 2 ^ (j - 1) = 2 ^ j by
        rw [← pow_succ']
        congr 1
        omega]
      exact hj

theorem pow_two_pow_chain {p : Nat} [Fact p.Prime] :
    ∀ (s : Nat) (x : ZMod p), x ^ 2 ^ s = 1 →
      x = 1 ∨ ∃ j, j < s ∧ x ^ 2 ^ j = -1 := by
  intro s
  induction s with
  | zero => intro x h; left; simpa using h
  | succ s ih =>
    intro x h
    have hsq : (x ^ 2 ^ s) * (x ^ 2 ^ s) = 1 := by
      rw [← pow_add]
      rw [show 2 ^ s + 2 ^ s = 2 ^ (s + 1) by omega]
      exact h
    rcases mul_self_eq_one_iff.mp hsq with h1 | hm1
    · rcases ih x h1 with h | ⟨j, hj, hjm⟩
      · exact Or.inl h
      · exact Or.inr ⟨j, by omega, hjm⟩
    · exact Or.inr ⟨s, by omega, hm1⟩

theorem mrBase_true_of_prime {p : Nat} (hp : p.Prime) (hodd : p % 2 = 1)
    (h2 : 2 < p) (d s : Nat) (hd : p - 1 = 2 ^ s * d) (hdodd : d % 2 = 1)
    (a : Nat) : mrBase p d s a = true := by
  haveI := Fact.mk hp
  have hs1 : 1 ≤ s := by
    rcases s with _ | s
    · rw [pow_zero, one_mul] at hd; omega
    · omega
  unfold mrBase
  by_cases ha : a % p = 0
  · rw [if_pos ha]
  rw [if_neg ha]
  have hx0 : (a : ZMod p) ≠ 0 := by
    rw [Ne, ZMod.natCast_zmod_eq_zero_iff_dvd]
    intro hdvd
    exact ha (Nat.mod_eq_zero_of_dvd hdvd)
  have hpow : powMod a d p = ((a : ZMod p) ^ d).val := by
    rw [powMod_eq a d p (by omega), ← Nat.cast_pow, ZMod.val_natCast]
  have hfermat : ((a : ZMod p) ^ d) ^ 2 ^ s = 1 := by
    rw [← pow_mul, show d * 2 ^ s = p - 1 by rw [mul_comm]; exact hd.symm]
    exact ZMod.pow_card_sub_one_eq_one hx0
  have hcast : ((p - 1 : Nat) : ZMod p) = -1 := by
    have hself : ((p : Nat) : ZMod p) = 0 := ZMod.natCast_self p
    rw [Nat.cast_sub (by omega : 1 ≤ p), hself, Nat.cast_one]
    ring
  have hvm1 : (-1 : ZMod p).val = p - 1 := by
    rw [← hcast, ZMod.val_natCast, Nat.mod_eq_of_lt (by omega)]
  rcases pow_two_pow_chain s ((a : ZMod p) ^ d) hfermat with h1 | ⟨j, hj, hneg⟩
  · haveI : Fact (1 < p) := ⟨by omega⟩
    rw [if_pos (Or.inl (by rw [hpow, h1, ZMod.val_one]))]
  · rcases Nat.eq_zero_or_pos j with hj0 | hjpos
    · subst hj0
      rw [pow_zero, pow_one] at hneg
      rw [if_pos (Or.inr (by rw [hpow, hneg, hvm1]))]
    · by_cases hc : powMod a d p = 1 ∨ powMod a d p = p - 1
      · rw [if_pos hc]
      · rw [if_neg hc]
        apply mrSqLoop_true (s - 1) (powMod a d p) p j hjpos (by omega)
        rw [hpow]
        have hval : ((a : ZMod p) ^ d).val ^ 2 ^ j % p =
            (((a : ZMod p) ^ d) ^ 2 ^ j).val := by
          rw [← ZMod.val_natCast, Nat.cast_pow, ZMod.natCast_zmod_val]
        rw [hval, hneg, hvm1]

/-- Claim C2: `miller_rabin` returns false for `n < 2`, true for `n = 2`,
false for even `n > 2` (all regardless of the base list), and true for
every odd prime `p < 10^6` with a nonempty base list (in fact the proof
never uses the bound nor the nonemptiness). -/
theorem miller_rabin_claim :
    (∀ (n : Nat) (bases : List Nat), n < 2 → miller_rabin n bases = false)
    ∧ (∀ bases : List Nat, miller_rabin 2 bases = true)
    ∧ (∀ (n : Nat) (bases : List Nat), 2 < n → n % 2 = 0 →
        miller_rabin n bases = false)
    ∧ (∀ (p : Nat) (bases : List Nat), p.Prime → p % 2 = 1 → p < 1000000 →
        bases ≠ [] → miller_rabin p bases = true) := by
  refine ⟨?_, ?_, ?_, ?_⟩
  · intro n bases hn
    simp [miller_rabin, if_pos hn]
  · intro bases; rfl
  · intro n bases h2 heven
    simp only [miller_rabin]
    rw [if_neg (by omega), if_pos heven]
    exact decide_eq_false_iff_not.mpr (by omega)
  · intro p bases hp hodd _ _
    have h2 : 2 < p := by
      have := hp.two_le
      omega
    simp only [miller_rabin]
    rw [if_neg (by omega), if_neg (by omega)]
    refine List.all_eq_true.mpr ?_
    intro a _
    obtain ⟨ho, hsp⟩ :=
      oddSplitAux_spec (p - 1) (p - 1) (by omega) le_rfl
    exact mrBase_true_of_prime hp hodd h2 _ _ hsp.symm ho a

/-- Witness for C2 at concrete inputs: 0 (below 2), 2, 4 (even), and the
odd prime 3 with base list `[2]`. -/
theorem miller_rabin_claim_witness :
    miller_rabin 0 [2] = false ∧ miller_rabin 2 [5] = true
    ∧ miller_rabin 4 [2] = false ∧ miller_rabin 3 [2] = true :=
  ⟨miller_rabin_claim.1 0 [2] (by decide),
   miller_rabin_claim.2.1 [5],
   miller_rabin_claim.2.2.1 4 [2] (by decide) (by decide),
   miller_rabin_claim.2.2.2 3 [2] (by norm_num) (by decide) (by decide)
     (by decide)⟩

/-- Claim C10: with the empty base list, `miller_rabin` returns true for
every odd `n ≥ 3` (the all-bases condition is vacuous), including
composites such as 9. -/
theorem miller_rabin_empty_bases (n : Nat) (hodd : n % 2 = 1) (h3 : 3 ≤ n) :
    miller_rabin n [] = true := by
  simp only [miller_rabin]
  rw [if_neg (by omega), if_neg (by omega)]
  rfl

/-- Witness for C10 at the composite input 9. -/
theorem miller_rabin_empty_bases_witness :
    9 % 2 = 1 ∧ 3 ≤ 9 ∧ miller_rabin 9 [] = true :=
  ⟨by decide, by decide, miller_rabin_empty_bases 9 (by decide) (by decide)⟩

/-- Claim C3 (code bug): the D-selection update
`d += 2; sign = -sign; d = sign * d` of `lucas_selfridge` does not produce
the Selfridge sequence 5, -7, 9, -11, 13, …: applied to the signed `d`, it
sends the state (5, 1) to (-7, -1) and then to (-5, 1), so the third
candidate examined is -5, not 9.  For n = 11 (odd, non-square, larger
than 2, with `jacobi(5, 11) = 1` and `jacobi(-7, 11) = 1`) the loop
consequently returns D = -5, a value the specified sequence never
contains. -/
theorem selfridge_candidate_order :
    selfridgeStep (5, 1) = (-7, -1)
    ∧ selfridgeStep (-7, -1) = (-5, 1)
    ∧ ((-5 : Int) ≠ 9)
    ∧ selfridgeLoop 11 10 (5, 1) = some (-5) :=
  ⟨by decide, by decide, by decide, by decide⟩

theorem selfridgeLoop_105_cycle : ∀ (fuel : Nat) (st : Int × Int),
    st = (5, 1) ∨ st = (-7, -1) ∨ st = (-5, 1) ∨ st = (3, -1) →
    selfridgeLoop 105 fuel st = none := by
  intro fuel
  induction fuel with
  | zero => intro st _; rfl
  | succ f ih =>
    intro st hst
    rcases hst with h | h | h | h <;> subst h <;>
      simp only [selfridgeLoop] <;> rw [if_neg (by decide)]
    · exact ih _ (Or.inr (Or.inl (by decide)))
    · exact ih _ (Or.inr (Or.inr (Or.inl (by decide))))
    · exact ih _ (Or.inr (Or.inr (Or.inr (by decide))))
    · exact ih _ (Or.inl (by decide))

/-- Claim C4 (code bug): `lucas_selfridge` is not total on odd `n > 2`.
On n = 105 = 3·5·7 (odd, non-square) every candidate of the broken
D-selection cycle 5, -7, -5, 3 has `jacobi(D, 105) = 0`, so the
`while True` loop never terminates: the model returns `none` for every
fuel bound. -/
theorem lucas_selfridge_diverges_on_105 (dFuel : Nat) :
    lucas_selfridge dFuel 105 = none := by
  simp only [lucas_selfridge]
  rw [if_neg (by decide), if_neg (by decide),
    selfridgeLoop_105_cycle dFuel (5, 1) (Or.inl rfl)]

/-- Claim C1 (code bug): the fixed true-vectors 1000003 and 10^18 + 9 of
the specification fail on the custom fallback path: both are prime and
pass Miller-Rabin base 2, but the Lucas ladder of `lucas_selfridge`
(LSB-first, never processing the leading bit) computes wrong
`U_d, V_d`, so `is_bpsw_probable_prime` answers `some false` on both.
(The remaining parts of the claim do hold: n < 2 gives false, members of
`SMALL_PRIMES` give true, proper multiples give false, and the vectors
2, 3 / 0, 1, 9, 561, 1105, 1729, 2465 behave as stated.) -/
theorem bpsw_vector_failures :
    is_bpsw_probable_prime 10 1000003 = some false
    ∧ is_bpsw_probable_prime 10 (10 ^ 18 + 9) = some false :=
  ⟨rfl, rfl⟩

/-- Claim C8 (counterexample): the main_odds run with start = 2,
end = 100 produces `checked = 49` (odd n from 3 to 99; the prime 2 is
skipped because start is rounded up to odd) and `hit_count = 12` (the
trial-division primes 3..37 plus 47, the only prime in 41..97 that the
faulty Lucas ladder accepts), not `checked = 50`, `hit_count = 25`.
The third component counts the BPSW evaluations. -/
theorem main_odds_2_100_counterexample :
    main_odds 10 2 100 0 = some (49, 12, 49)
    ∧ ((49, 12) ≠ ((50 : Nat), (25 : Nat))) :=
  ⟨rfl, by decide⟩

/-- Claim C8 (amended): the report of the main_odds run with start = 2,
end = 100 has `checked = 49` and `hit_count = 12`. -/
theorem main_odds_2_100_report : main_odds 10 2 100 0 = some (49, 12, 49) :=
  rfl

theorem fmod_natAbs_lt : ∀ (a b : Int), b ≠ 0 → (a.fmod b).natAbs < b.natAbs := by
  intro a b hb
  have hpos : 0 < b.natAbs := Int.natAbs_pos.mpr hb
  cases a with
  | ofNat m =>
    cases b with
    | ofNat n =>
      have hn : n ≠ 0 := by
        intro h; exact hb (by simp [h])
      cases m with
      | zero => simpa using hpos
      | succ m =>
        show (Int.ofNat (Nat.succ m % n)).natAbs < (Int.ofNat n).natAbs
        have e1 : (Int.ofNat (Nat.succ m % n)).natAbs = Nat.succ m % n := rfl
        have e2 : (Int.ofNat n).natAbs = n := rfl
        rw [e1, e2]
        exact Nat.mod_lt _ (by omega)
    | negSucc n =>
      cases m with
      | zero => simp
      | succ m =>
        show (Int.subNatNat (m % Nat.succ n) n).natAbs < (Int.negSucc n).natAbs
        rw [Int.subNatNat_eq_coe]
        have h1 : m % Nat.succ n < Nat.succ n := Nat.mod_lt _ (Nat.succ_pos n)
        have h2 : (Int.negSucc n).natAbs = n + 1 := rfl
        omega
  | negSucc m =>
    cases b with
    | ofNat n =>
      have hn : n ≠ 0 := by
        intro h; exact hb (by simp [h])
      show (Int.subNatNat n (Nat.succ (m % n))).natAbs < (Int.ofNat n).natAbs
      rw [Int.subNatNat_eq_coe]
      have h1 : m % n < n := Nat.mod_lt _ (by omega)
      have h2 : (Int.ofNat n).natAbs = n := rfl
      omega
    | negSucc n =>
      show (-Int.ofNat (Nat.succ m % Nat.succ n)).natAbs < (Int.negSucc n).natAbs
      rw [Int.natAbs_neg]
      have h1 : Nat.succ m % Nat.succ n < Nat.succ n := Nat.mod_lt _ (Nat.succ_pos n)
      have h2 : (Int.negSucc n).natAbs = n + 1 := rfl
      have h3 : (Int.ofNat (Nat.succ m % Nat.succ n)).natAbs = Nat.succ m % Nat.succ n := rfl
      omega

theorem egcdAux_zero_right (fuel : Nat) (a : Int) (h : 0 < fuel) :
    egcdAux fuel a 0 = (a, 1, 0) := by
  obtain ⟨f, rfl⟩ : ∃ f, fuel = f + 1 := ⟨fuel - 1, by omega⟩
  simp [egcdAux]

theorem egcdAux_bezout : ∀ (fuel : Nat) (a b : Int), b.natAbs < fuel →
    (egcdAux fuel a b).1 =
      a * (egcdAux fuel a b).2.1 + b * (egcdAux fuel a b).2.2 := by
  intro fuel
  induction fuel with
  | zero => intro a b h; omega
  | succ f ih =>
    intro a b h
    by_cases hb : b = 0
    · subst hb
      rw [egcdAux_zero_right (f + 1) a (by omega)]
      ring
    · have hlt : (a.fmod b).natAbs < f :=
        Nat.lt_of_lt_of_le (fmod_natAbs_lt a b hb) (by omega)
      have hrec := ih b (a.fmod b) hlt
      simp only [egcdAux, if_neg hb]
      rw [hrec, Int.fmod_def]
      ring

theorem egcdAux_dvd : ∀ (fuel : Nat) (a b : Int), b.natAbs < fuel →
    (egcdAux fuel a b).1 ∣ a ∧ (egcdAux fuel a b).1 ∣ b := by
  intro fuel
  induction fuel with
  | zero => intro a b h; omega
  | succ f ih =>
    intro a b h
    by_cases hb : b = 0
    · subst hb
      rw [egcdAux_zero_right (f + 1) a (by omega)]
      exact ⟨dvd_refl a, dvd_zero a⟩
    · have hlt : (a.fmod b).natAbs < f :=
        Nat.lt_of_lt_of_le (fmod_natAbs_lt a b hb) (by omega)
      obtain ⟨hdb, hdr⟩ := ih b (a.fmod b) hlt
      simp only [egcdAux, if_neg hb]
      refine ⟨?_, hdb⟩
      have heq : a = a.fmod b + b * a.fdiv b := (Int.fmod_add_fdiv a b).symm
      calc (egcdAux f b (a.fmod b)).1 ∣ a.fmod b + b * a.fdiv b :=
            dvd_add hdr (Dvd.dvd.mul_right hdb _)
        _ = a := heq.symm

theorem egcdAux_pos : ∀ (fuel : Nat) (a b : Int), b.natAbs < fuel → 0 < b →
    0 < (egcdAux fuel a b).1 := by
  intro fuel
  induction fuel with
  | zero => intro a b h _; omega
  | succ f ih =>
    intro a b h hb
    have hb0 : b ≠ 0 := by omega
    simp only [egcdAux, if_neg hb0]
    have hr0 : 0 ≤ a.fmod b := Int.fmod_nonneg' a hb
    rcases lt_or_eq_of_le hr0 with hrpos | hrzero
    · exact ih b (a.fmod b)
        (Nat.lt_of_lt_of_le (fmod_natAbs_lt a b hb0) (by omega)) hrpos
    · have hf : 1 ≤ f := by
        have : 0 < b.natAbs := Int.natAbs_pos.mpr hb0
        omega
      rw [← hrzero, egcdAux_zero_right f b (by omega)]
      exact hb

theorem egcdAux_nonneg : ∀ (fuel : Nat) (a b : Int), b.natAbs < fuel →
    0 ≤ a → 0 ≤ b → 0 ≤ (egcdAux fuel a b).1 := by
  intro fuel a b h ha hb
  rcases lt_or_eq_of_le hb with hbpos | hbzero
  · exact le_of_lt (egcdAux_pos fuel a b h hbpos)
  · rw [← hbzero, egcdAux_zero_right fuel a (by omega)]
    exact ha

/-- Claim C6 (counterexample): `egcd(-5, 0)` returns `(-5, 1, 0)`: the
Bézout identity holds but `g = -5 < 0`, contradicting `g ≥ 0` for all
integer inputs. -/
theorem egcd_neg_counterexample :
    egcd (-5) 0 = (-5, 1, 0) ∧ ¬ (0 ≤ (-5 : Int)) :=
  ⟨rfl, by decide⟩

/-- Claim C6 (amended): for all integers `a, b`, `egcd(a, b) = (g, x, y)`
satisfies the Bézout identity `g = a·x + b·y`; the sign guarantee
`g ≥ 0` holds when both inputs are non-negative (the base case returns
`a` itself, so a negative first input with `b = 0` escapes, and a
negative `b` propagates negative remainders). -/
theorem egcd_spec (a b : Int) :
    (egcd a b).1 = a * (egcd a b).2.1 + b * (egcd a b).2.2
    ∧ (0 ≤ a → 0 ≤ b → 0 ≤ (egcd a b).1) := by
  constructor
  · exact egcdAux_bezout (b.natAbs + 1) a b (by omega)
  · intro ha hb
    exact egcdAux_nonneg (b.natAbs + 1) a b (by omega) ha hb

/-- Witness for C6 at `a = 4`, `b = 6`: `egcd 4 6 = (2, -1, 1)` with
`2 = 4·(-1) + 6·1` and `2 ≥ 0`. -/
theorem egcd_spec_witness :
    ((egcd 4 6).1 = 4 * (egcd 4 6).2.1 + 6 * (egcd 4 6).2.2)
    ∧ 0 ≤ (4 : Int) ∧ 0 ≤ (6 : Int) ∧ 0 ≤ (egcd 4 6).1 :=
  ⟨(egcd_spec 4 6).1,
   by decide, by decide, (egcd_spec 4 6).2 (by decide) (by decide)⟩

/-- Claim C5: for positive moduli, `crt_pair` fails with the
incompatible-congruences error iff `gcd(m1, m2)` does not divide
`a2 - a1`, and otherwise returns `(r, lcm(m1, m2))` with
`r ≡ a1 (mod m1)`, `r ≡ a2 (mod m2)` and `0 ≤ r < lcm`. -/
theorem crt_pair_spec (a1 m1 a2 m2 : Int) (hm1 : 0 < m1) (hm2 : 0 < m2) :
    (crt_pair a1 m1 a2 m2 = Except.error "incompatible congruences"
      ↔ ¬ ((Int.gcd m1 m2 : Int) ∣ (a2 - a1)))
    ∧ (∀ r L, crt_pair a1 m1 a2 m2 = Except.ok (r, L) →
        L = (Int.lcm m1 m2 : Int) ∧ Int.ModEq m1 r a1 ∧ Int.ModEq m2 r a2
        ∧ 0 ≤ r ∧ r < L) := by
  have hunfold : crt_pair a1 m1 a2 m2 =
      if (a2 - a1).fmod (egcd m1 m2).1 ≠ 0 then
        Except.error "incompatible congruences"
      else
        Except.ok
          ((a1 + m1 * (((a2 - a1).fdiv (egcd m1 m2).1 * (egcd m1 m2).2.1).fmod
              (m2.fdiv (egcd m1 m2).1))).fmod (m1.fdiv (egcd m1 m2).1 * m2),
            m1.fdiv (egcd m1 m2).1 * m2) := rfl
  set g := (egcd m1 m2).1 with hg_def
  set xx := (egcd m1 m2).2.1 with hxx_def
  set yy := (egcd m1 m2).2.2 with hyy_def
  have hbez : g = m1 * xx + m2 * yy := by
    rw [hg_def, hxx_def, hyy_def]
    exact egcdAux_bezout (m2.natAbs + 1) m1 m2 (by omega)
  have hdvd12 : g ∣ m1 ∧ g ∣ m2 := by
    rw [hg_def]
    exact egcdAux_dvd (m2.natAbs + 1) m1 m2 (by omega)
  have hgpos : 0 < g := by
    rw [hg_def]
    exact egcdAux_pos (m2.natAbs + 1) m1 m2 (by omega) hm2
  have hg0 : g ≠ 0 := ne_of_gt hgpos
  have hggcd : g = (Int.gcd m1 m2 : Int) := by
    refine Int.dvd_antisymm (le_of_lt hgpos) (by positivity) ?_ ?_
    · exact Int.dvd_gcd hdvd12.1 hdvd12.2
    · rw [hbez]
      exact dvd_add (Int.gcd_dvd_left.mul_right xx) (Int.gcd_dvd_right.mul_right yy)
  have hfmod0 : ((a2 - a1).fmod g = 0) ↔ ((Int.gcd m1 m2 : Int) ∣ (a2 - a1)) := by
    rw [Int.fmod_eq_emod _ (le_of_lt hgpos), ← hggcd]
    exact ⟨Int.dvd_of_emod_eq_zero, Int.emod_eq_zero_of_dvd⟩
  constructor
  · by_cases hd : (a2 - a1).fmod g = 0
    · refine iff_of_false ?_ (not_not_intro (hfmod0.mp hd))
      rw [hunfold, if_neg (not_not_intro hd)]
      simp
    · refine iff_of_true ?_ fun hdvd => hd (hfmod0.mpr hdvd)
      rw [hunfold, if_pos hd]
  · intro r L' hok
    by_cases hd : (a2 - a1).fmod g = 0
    · rw [hunfold, if_neg (not_not_intro hd)] at hok
      set D := (a2 - a1).fdiv g with hD_def
      set m1' := m1.fdiv g with hm1'_def
      set m2' := m2.fdiv g with hm2'_def
      set t := (D * xx).fmod m2' with ht_def
      set kk := (D * xx).fdiv m2' with hkk_def
      set L := m1' * m2 with hL_def
      set R := (a1 + m1 * t).fmod L with hR_def
      obtain ⟨hr, hL'⟩ : R = r ∧ L = L' := by
        constructor
        · exact congrArg Prod.fst (Except.ok.inj hok)
        · exact congrArg Prod.snd (Except.ok.inj hok)
      subst hr
      subst hL'
      have hgD : g * D = a2 - a1 := by
        have h0 := Int.fmod_add_fdiv (a2 - a1) g
        rw [hd, ← hD_def] at h0
        simpa using h0
      have hgm1 : g * m1' = m1 := by
        have hf : m1.fmod g = 0 := by
          rw [Int.fmod_eq_emod _ (le_of_lt hgpos)]
          exact Int.emod_eq_zero_of_dvd hdvd12.1
        have h0 := Int.fmod_add_fdiv m1 g
        rw [hf, ← hm1'_def] at h0
        simpa using h0
      have hgm2 : g * m2' = m2 := by
        have hf : m2.fmod g = 0 := by
          rw [Int.fmod_eq_emod _ (le_of_lt hgpos)]
          exact Int.emod_eq_zero_of_dvd hdvd12.2
        have h0 := Int.fmod_add_fdiv m2 g
        rw [hf, ← hm2'_def] at h0
        simpa using h0
      have hm1'pos : 0 < m1' := by
        have hpm : 0 < g * m1' := by rw [hgm1]; exact hm1
        rcases mul_pos_iff.mp hpm with ⟨_, h⟩ | ⟨h, _⟩
        · exact h
        · linarith
      have hLpos : 0 < L := by
        rw [hL_def]
        exact mul_pos hm1'pos hm2
      have ht : t = D * xx - m2' * kk := by
        rw [ht_def, Int.fmod_def, ← hkk_def]
      have htarget : a2 - (a1 + m1 * t) = m2 * (D * yy + m1' * kk) := by
        linear_combination (-1 : Int) * hgD - m1 * ht + D * hbez
          - m2' * kk * hgm1 + m1' * kk * hgm2
      have hm1L : m1 ∣ L := ⟨m2', by
        rw [hL_def]
        linear_combination m2' * hgm1 - m1' * hgm2⟩
      have hm2L : m2 ∣ L := ⟨m1', by rw [hL_def]; ring⟩
      have hRem : R = (a1 + m1 * t) % L := by
        rw [hR_def]
        exact Int.fmod_eq_emod _ (le_of_lt hLpos)
      refine ⟨?_, ?_, ?_, ?_, ?_⟩
      · -- L is the lcm
        have hcast : (Int.gcd m1 m2 : Int) * (Int.lcm m1 m2 : Int) = m1 * m2 := by
          rw [← Nat.cast_mul, Int.gcd_mul_lcm m1 m2,
            Int.natAbs_of_nonneg (by positivity)]
        have hgL : g * L = m1 * m2 := by
          rw [hL_def]
          linear_combination m2 * hgm1
        have hcancel : g * L = g * (Int.lcm m1 m2 : Int) := by
          rw [hgL, hggcd]
          exact hcast.symm
        exact mul_left_cancel₀ hg0 hcancel
      · show R % m1 = a1 % m1
        rw [hRem, Int.emod_emod_of_dvd _ hm1L, Int.add_mul_emod_self_left]
      · show R % m2 = a2 % m2
        rw [hRem, Int.emod_emod_of_dvd _ hm2L]
        exact Int.modEq_iff_dvd.mpr ⟨D * yy + m1' * kk, htarget⟩
      · rw [hR_def]
        exact Int.fmod_nonneg' _ hLpos
      · rw [hR_def]
        exact Int.fmod_lt_of_pos _ hLpos
    · rw [hunfold, if_pos hd] at hok
      exact Except.noConfusion hok

/-- Witness for C5 at `a1 = 2, m1 = 3, a2 = 3, m2 = 5`:
`crt_pair` returns `(8, 15)` with `8 ≡ 2 (mod 3)`, `8 ≡ 3 (mod 5)`,
`15 = lcm(3, 5)` and `0 ≤ 8 < 15`. -/
theorem crt_pair_spec_witness :
    crt_pair 2 3 3 5 = Except.ok (8, 15)
    ∧ ((15 : Int) = (Int.lcm 3 5 : Int) ∧ Int.ModEq 3 8 2 ∧ Int.ModEq 5 8 3
        ∧ 0 ≤ (8 : Int) ∧ (8 : Int) < 15) :=
  ⟨rfl, (crt_pair_spec 2 3 3 5 (by decide) (by decide)).2 8 15 rfl⟩

theorem fpwfAux_found : ∀ (stepsLeft : Nat) (f : Nat → Nat) (pred : Nat → Bool)
    (low high i p i' : Nat),
    fpwfAux f pred low high stepsLeft i = some (p, i') →
    pred p = true ∧ is_probable_prime p = true := by
  intro stepsLeft
  induction stepsLeft with
  | zero => intro f pred low high i p i' h; exact Option.noConfusion h
  | succ sl ih =>
    intro f pred low high i p i' h
    simp only [fpwfAux] at h
    split at h
    · exact Option.noConfusion h
    · rename_i c heq
      split at h
      · rename_i hc
        have hpc : c = p := congrArg Prod.fst (Option.some.inj h)
        subst hpc
        rw [Bool.and_eq_true] at hc
        exact ⟨hc.1, hc.2⟩
      · rename_i hc
        exact ih f pred low high (i + 1) p i' h

theorem plAux_spec : ∀ (fuel : Nat) (f : Nat → Nat) (td pd ms i : Nat)
    (factors : List Nat) (n : Nat) (out : List Nat),
    (∀ p ∈ factors, pomerance_lite_predicate p = true) →
    factors.length ≤ 9 →
    plAux f td pd ms fuel i factors = some (n, out) →
    (∀ p ∈ out, pomerance_lite_predicate p = true)
    ∧ (out.length % 2 = 1 ∨ out.length = 10)
    ∧ n = out.prod := by
  intro fuel
  induction fuel with
  | zero => intro f td pd ms i factors n out _ _ h; exact Option.noConfusion h
  | succ fu ih =>
    intro f td pd ms i factors n out hinv hlen h
    simp only [plAux] at h
    by_cases hcond : digits (if factors.isEmpty then 1 else factors.prod) < td
        ∨ factors.length % 2 = 0
    · rw [if_pos hcond] at h
      split at h
      · exact Option.noConfusion h
      · rename_i pi hfp
        have hpred : pomerance_lite_predicate pi.1 = true ∧
            is_probable_prime pi.1 = true :=
          fpwfAux_found ms f pomerance_lite_predicate _ _ i pi.1 pi.2 hfp
        have hinv' : ∀ p ∈ factors ++ [pi.1],
            pomerance_lite_predicate p = true := by
          intro p hp
          rcases List.mem_append.mp hp with h1 | h2
          · exact hinv p h1
          · have hppi : p = pi.1 := by simpa using h2
            subst hppi
            exact hpred.1
        by_cases hcap : (factors ++ [pi.1]).length > 9
        · rw [if_pos hcap] at h
          have hx := Option.some.inj h
          have hn : (factors ++ [pi.1]).prod = n := congrArg Prod.fst hx
          have hout : factors ++ [pi.1] = out := congrArg Prod.snd hx
          subst hn
          subst hout
          have hl : (factors ++ [pi.1]).length = factors.length + 1 := by simp
          exact ⟨hinv', Or.inr (by omega), rfl⟩
        · rw [if_neg hcap] at h
          have hlen' : (factors ++ [pi.1]).length ≤ 9 := by omega
          exact ih f td pd ms pi.2 (factors ++ [pi.1]) n out hinv' hlen' h
    · rw [if_neg hcond] at h
      have hx := Option.some.inj h
      have hn : factors.prod = n := congrArg Prod.fst hx
      have hout : factors = out := congrArg Prod.snd hx
      subst hn
      subst hout
      push_neg at hcond
      exact ⟨hinv, Or.inl (by omega), rfl⟩

/-- Claim C7 (amended): whenever `generate_pomerance_lite` returns a
product, every factor `p` satisfies `p ≡ 3 (mod 8)` and
`jacobi(5, p) = -1`, the product equals the factor-list product, and the
number of factors is odd UNLESS the 10-factor hard cap was hit, in which
case it is the even number 10. -/
theorem generate_pomerance_lite_spec (f : Nat → Nat) (td pd ms n : Nat)
    (out : List Nat)
    (h : generate_pomerance_lite f td pd ms = some (n, out)) :
    (∀ p ∈ out, p % 8 = 3 ∧ jacobi 5 (p : Int) = -1)
    ∧ (out.length % 2 = 1 ∨ out.length = 10)
    ∧ n = out.prod := by
  obtain ⟨h1, h2, h3⟩ :=
    plAux_spec 11 f td pd ms 0 [] n out (by simp) (by simp) h
  refine ⟨?_, h2, h3⟩
  intro p hp
  have hb := h1 p hp
  simpa [pomerance_lite_predicate] using hb

/-- Witness for C7: with target_digits = 1, prime_digits = 1, and the
constant draw stream hitting 3, the generator returns `(3, [3])`: one
factor, odd count, satisfying the filter. -/
theorem generate_pomerance_lite_spec_witness :
    generate_pomerance_lite (fun _ => 1) 1 1 5 = some (3, [3])
    ∧ ((∀ p ∈ ([3] : List Nat), p % 8 = 3 ∧ jacobi 5 (p : Int) = -1)
        ∧ (([3] : List Nat).length % 2 = 1 ∨ ([3] : List Nat).length = 10)
        ∧ 3 = ([3] : List Nat).prod) :=
  ⟨rfl, generate_pomerance_lite_spec (fun _ => 1) 1 1 5 3 [3] rfl⟩

/-- Claim C7 (counterexample): with prime_digits = 1 every accepted draw
is the prime 3 (the only 1-digit value passing the filter), so reaching
target_digits = 22 is impossible and the 10-factor hard cap fires: the
generator returns 3^10 = 59049 with an EVEN factor count of 10, refuting
"the number of factors is odd". -/
theorem generate_pomerance_lite_counterexample :
    generate_pomerance_lite (fun _ => 1) 22 1 5000
      = some (59049, [3, 3, 3, 3, 3, 3, 3, 3, 3, 3])
    ∧ ¬ (([3, 3, 3, 3, 3, 3, 3, 3, 3, 3] : List Nat).length % 2 = 1) :=
  ⟨rfl, by decide⟩

theorem runRangeAux_checked : ∀ (dFuel endN maxCand fuel n c hits t : Nat)
    (r : Nat × Nat × Nat), c = t →
    runRangeAux dFuel endN maxCand fuel n c hits t = some r → r.1 = r.2.2 := by
  intro dF e mc fuel
  induction fuel with
  | zero =>
    intro n c hits t r hct hr
    cases hr
    exact hct
  | succ fu ih =>
    intro n c hits t r hct hr
    simp only [runRangeAux] at hr
    by_cases h1 : n > e
    · rw [if_pos h1] at hr
      cases hr
      exact hct
    · rw [if_neg h1] at hr
      by_cases h2 : mc ≠ 0 ∧ c ≥ mc
      · rw [if_pos h2] at hr
        cases hr
        exact hct
      · rw [if_neg h2] at hr
        split at hr
        · exact Option.noConfusion hr
        · exact ih (n + 2) (c + 1) _ (t + 1) r (by omega) hr

theorem runChernickAux_checked : ∀ (dFuel endK : Nat) (req : Bool)
    (fuel k c hits t sk : Nat) (r : Nat × Nat × Nat × Nat), c = t + sk →
    runChernickAux dFuel endK req fuel k c hits t sk = some r →
    r.1 = r.2.2.1 + r.2.2.2 := by
  intro dF e req fuel
  induction fuel with
  | zero =>
    intro k c hits t sk r hct hr
    cases hr
    exact hct
  | succ fu ih =>
    intro k c hits t sk r hct hr
    simp only [runChernickAux] at hr
    by_cases h1 : k > e
    · rw [if_pos h1] at hr
      cases hr
      exact hct
    · rw [if_neg h1] at hr
      split at hr
      · exact ih (k + 1) (c + 1) hits t (sk + 1) r (by omega) hr
      · split at hr
        · exact Option.noConfusion hr
        · exact ih (k + 1) (c + 1) _ (t + 1) sk r (by omega) hr

theorem runSeedAux_checked : ∀ (dFuel : Nat)
    (gen : Nat → Option (Nat × List Nat)) (endS fuel seed c hits t er : Nat)
    (r : Nat × Nat × Nat × Nat), c = t + er →
    runSeedAux dFuel gen endS fuel seed c hits t er = some r →
    r.1 = r.2.2.1 + r.2.2.2 := by
  intro dF gen e fuel
  induction fuel with
  | zero =>
    intro seed c hits t er r hct hr
    cases hr
    exact hct
  | succ fu ih =>
    intro seed c hits t er r hct hr
    simp only [runSeedAux] at hr
    by_cases h1 : seed > e
    · rw [if_pos h1] at hr
      cases hr
      exact hct
    · rw [if_neg h1] at hr
      split at hr
      · exact ih (seed + 1) (c + 1) hits t (er + 1) r (by omega) hr
      · split at hr
        · exact Option.noConfusion hr
        · exact ih (seed + 1) (c + 1) _ (t + 1) er r (by omega) hr

/-- Claim C9 (amended): in range mode `checked` equals the number of
candidates BPSW-evaluated; in chernick mode `checked` equals the
BPSW-evaluated candidates plus the silently skipped failed generations;
in seed mode `checked` equals the BPSW-evaluated candidates plus the
recorded generation errors.  (In the result tuples the first component
is `checked`, the third counts BPSW evaluations, and the fourth, where
present, counts skipped/errored generations.)  Factors generated inside
a candidate are never counted. -/
theorem checked_counter_semantics :
    (∀ (dFuel start endN maxCand : Nat) (r : Nat × Nat × Nat),
      main_odds dFuel start endN maxCand = some r → r.1 = r.2.2)
    ∧ (∀ (dFuel start endK : Nat) (req : Bool) (r : Nat × Nat × Nat × Nat),
      chernick_mode dFuel start endK req = some r → r.1 = r.2.2.1 + r.2.2.2)
    ∧ (∀ (dFuel : Nat) (gen : Nat → Option (Nat × List Nat))
        (seedStart seedEnd : Nat) (r : Nat × Nat × Nat × Nat),
      seed_mode dFuel gen seedStart seedEnd = some r →
        r.1 = r.2.2.1 + r.2.2.2) := by
  refine ⟨?_, ?_, ?_⟩
  · intro dF s e mc r hr
    simp only [main_odds] at hr
    split at hr
    · exact Option.noConfusion hr
    · exact runRangeAux_checked dF e mc (e + 1) _ 0 0 0 r rfl hr
  · intro dF s e req r hr
    simp only [chernick_mode] at hr
    split at hr
    · exact Option.noConfusion hr
    · exact runChernickAux_checked dF e req (e + 1) s 0 0 0 0 r rfl hr
  · intro dF gen ss se r hr
    simp only [seed_mode] at hr
    split at hr
    · exact Option.noConfusion hr
    · exact runSeedAux_checked dF gen se (se + 1) ss 0 0 0 0 r rfl hr

/-- Witness for C9 (amended) on a concrete run of each mode: range run
over `[3, 3]` gives `checked = tested = 1`; chernick run over `[2, 2]`
with required prime factors gives `checked = 1 = 0 + 1` (one skip); the
seed run over `[1, 1]` with a generator that always fails gives
`checked = 1 = 0 + 1` (one recorded error). -/
theorem checked_counter_semantics_witness :
    (main_odds 10 3 3 0 = some (1, 1, 1) ∧ (1 : Nat) = 1)
    ∧ (chernick_mode 10 2 2 true = some (1, 0, 0, 1) ∧ (1 : Nat) = 0 + 1)
    ∧ (seed_mode 10 (fun _ => none) 1 1 = some (1, 0, 0, 1)
        ∧ (1 : Nat) = 0 + 1) :=
  ⟨⟨rfl, checked_counter_semantics.1 10 3 3 0 (1, 1, 1) rfl⟩,
   ⟨rfl, checked_counter_semantics.2.1 10 2 2 true (1, 0, 0, 1) rfl⟩,
   ⟨rfl, checked_counter_semantics.2.2 10 (fun _ => none) 1 1 (1, 0, 0, 1) rfl⟩⟩

/-- Claim C9 (counterexample): in chernick mode with `k ∈ [2, 2]` and
`require_prime_factors`, generation fails (25 = 12·2 + 1 is composite),
so no candidate is ever evaluated for primality, yet the report says
`checked = 1`: `checked` (first component) is 1 while the number of
candidates BPSW-evaluated (third component) is 0. -/
theorem chernick_checked_counterexample :
    chernick_mode 10 2 2 true = some (1, 0, 0, 1) ∧ (1 : Nat) ≠ 0 :=
  ⟨rfl, by decide⟩
